import Mathlib

/-!
Verification of the warehouse-stock aggregation pipeline (`w2.py`).

The pipeline reads a ledger CSV, resolves four semantic columns, normalizes
the balance and disposition columns, filters to disposition `"SELLABLE"`,
aggregates balances by (location, MSKU), supports a post-hoc MSKU search
filter, and serializes the aggregate to CSV.  The definitions below are a
shallow embedding of those source functions; cells read from the CSV are
modelled as `Option String` (a missing cell is `none`, mirroring pandas NaN).
-/

namespace W2

/-- ASCII lowercase/uppercase letter pairs, used to model Python's
`str.upper` on the ASCII range (the only range the data uses). -/
def upperPairs : List (Char × Char) :=
  [('a', 'A'), ('b', 'B'), ('c', 'C'), ('d', 'D'), ('e', 'E'), ('f', 'F'),
   ('g', 'G'), ('h', 'H'), ('i', 'I'), ('j', 'J'), ('k', 'K'), ('l', 'L'),
   ('m', 'M'), ('n', 'N'), ('o', 'O'), ('p', 'P'), ('q', 'Q'), ('r', 'R'),
   ('s', 'S'), ('t', 'T'), ('u', 'U'), ('v', 'V'), ('w', 'W'), ('x', 'X'),
   ('y', 'Y'), ('z', 'Z')]

/-- Uppercase/lowercase letter pairs for Python's `str.lower` (ASCII). -/
def lowerPairs : List (Char × Char) :=
  upperPairs.map (fun p => (p.2, p.1))

/-- One character of Python's `str.upper` (ASCII fragment). -/
def upperChar (c : Char) : Char :=
  match upperPairs.find? (fun p => p.1 == c) with
  | some p => p.2
  | none => c

/-- One character of Python's `str.lower` (ASCII fragment). -/
def lowerChar (c : Char) : Char :=
  match lowerPairs.find? (fun p => p.1 == c) with
  | some p => p.2
  | none => c

/-- Python `str.upper` (ASCII fragment), as used by `.str.upper()`. -/
def pyUpper (s : String) : String :=
  ⟨s.data.map upperChar⟩

/-- Python `str.lower` (ASCII fragment), as used by `.str.lower()`. -/
def pyLower (s : String) : String :=
  ⟨s.data.map lowerChar⟩

/-- Remove leading and trailing whitespace from a character list
(the list-level body of Python's `str.strip`). -/
def stripChars (l : List Char) : List Char :=
  ((l.dropWhile Char.isWhitespace).reverse.dropWhile Char.isWhitespace).reverse

/-- Python `str.strip`: drop leading and trailing whitespace. -/
def pyStrip (s : String) : String :=
  ⟨stripChars s.data⟩

/-- pandas `.astype(str)` on one cell: a missing value (NaN) prints as the
literal string `"nan"`; a present string is unchanged. -/
def pyStrCast : Option String → String
  | none => "nan"
  | some s => s

/-- Source, `w2.py` line 130: `.str.replace(",", "", regex=False)` followed by
line 131: `.str.replace(r"[^\d\.\-]", "", regex=True)` — first every comma is
removed, then every character other than a digit, a dot or a minus sign. -/
def cleanBalance (s : String) : String :=
  ⟨(s.data.filter (fun c => !(c == ','))).filter
    (fun c => c.isDigit || c == '.' || c == '-')⟩

/-- Decimal value of a digit string (most significant first),
`'0'` has code 48. -/
def decVal (l : List Char) : Nat :=
  l.foldl (fun a c => 10 * a + (c.toNat - 48)) 0

/-- Unsigned part of Python's `float`/`int` literal grammar as accepted by
`pd.to_numeric` after cleaning: `D+ ('.' D*)?` or `'.' D+`; the returned
value is the integer part only, which models the truncation performed by
the final `.astype(int)` (numpy truncates toward zero). -/
def parseMantissa (l : List Char) : Option Nat :=
  let ip := l.takeWhile Char.isDigit
  let rest := l.dropWhile Char.isDigit
  match rest with
  | [] => if ip.isEmpty then none else some (decVal ip)
  | c :: fp =>
    if c == '.' then
      if fp.all Char.isDigit && !(ip.isEmpty && fp.isEmpty) then some (decVal ip)
      else none
    else none

/-- Source, `w2.py` line 133: `pd.to_numeric(…, errors="coerce")` on a cleaned
cell followed by truncation to int; `none` models the NaN produced when the
string is not numeric. -/
def parseCleaned (s : String) : Option Int :=
  match s.data with
  | [] => none
  | c :: rest =>
    if c = '-' then (parseMantissa rest).map (fun n => -(n : Int))
    else (parseMantissa (c :: rest)).map (fun n => (n : Int))

/-- Source, `w2.py` lines 128–133: the whole balance normalization of one cell:
cast to text, remove commas, remove non-numeric characters, parse, coerce
failures to 0 (`fillna(0)`), truncate to integer. -/
def normalizeBalance (cell : Option String) : Int :=
  match parseCleaned (cleanBalance (pyStrCast cell)) with
  | some i => i
  | none => 0

/-- Source, `w2.py` line 135: `.astype(str).str.strip().str.upper()` on one
disposition cell. -/
def normDisp (cell : Option String) : String :=
  pyUpper (pyStrip (pyStrCast cell))

/-- One input row, restricted to the four cells the pipeline uses.  A cell
read from the CSV is `none` when the cell was empty/missing (pandas NaN). -/
structure RawRow where
  msku : Option String
  disposition : Option String
  balance : Option String
  location : Option String
deriving DecidableEq

/-- Source, `w2.py` line 136: `df[df[disp_col] == "SELLABLE"]` — keep exactly
the rows whose normalized disposition equals `"SELLABLE"`. -/
def sellableRows (t : List RawRow) : List RawRow :=
  t.filter (fun r => normDisp r.disposition == "SELLABLE")

/-- Source, `w2.py` line 142: `df_sellable[loc_col].fillna("Unknown")`. -/
def normLoc : Option String → String
  | none => "Unknown"
  | some s => s

/-- The groupby key of a row: `(location, msku)`.  pandas `groupby` with the
default `dropna=True` silently drops rows whose key contains NaN, so a row
with a missing MSKU cell has no key (`none`).  Location was already
`fillna`-ed, so only the MSKU cell can be missing. -/
def keyOf (r : RawRow) : Option (String × String) :=
  r.msku.map (fun m => (normLoc r.location, m))

/-- The distinct groupby keys occurring in a list of rows. -/
def keysOf (rows : List RawRow) : List (String × String) :=
  (rows.filterMap keyOf).dedup

/-- Source, `w2.py` lines 144–147: the in-group sum of normalized balances for
one `(location, msku)` key. -/
def groupSum (rows : List RawRow) (k : String × String) : Int :=
  ((rows.filter (fun r => keyOf r == some k)).map
    (fun r => normalizeBalance r.balance)).sum

/-- One output row of the aggregate, columns `Location`, `MSKU`,
`Ending Warehouse Balance` (`w2.py` line 148). -/
structure AggRow where
  location : String
  msku : String
  balance : Int
deriving DecidableEq

/-- Source, `w2.py` lines 136–149: filter to sellable rows, group by
`(location, msku)` and sum the balance within each group. -/
def aggregate (t : List RawRow) : List AggRow :=
  (keysOf (sellableRows t)).map
    (fun k => ⟨k.1, k.2, groupSum (sellableRows t) k⟩)

/-- The grand total the dashboard shows (`w2.py` line 155):
sum of the aggregate balances. -/
def aggTotal (t : List RawRow) : Int :=
  ((aggregate t).map (fun a => a.balance)).sum

/-- The sum the spec's invariant talks about: total normalized balance of all
rows whose normalized disposition is exactly `"SELLABLE"`. -/
def sellableTotal (t : List RawRow) : Int :=
  ((sellableRows t).map (fun r => normalizeBalance r.balance)).sum

/-- Source, `w2.py` lines 42–43: the comparison key of a header,
`c.strip().lower()`. -/
def keyNorm (s : String) : String :=
  pyLower (pyStrip s)

/-- Source, `w2.py` lines 41–43 (`_find_column_by_name`): build the dict
`{c.strip().lower(): c}` over the columns (later duplicates overwrite earlier
ones, hence `getLast?`) and look up `desired.strip().lower()`. -/
def findColumnByName (cols : List String) (desired : String) : Option String :=
  (cols.filter (fun c => keyNorm c == keyNorm desired)).getLast?

/-- Source, `w2.py` lines 110–112: look a field up by its display name first
and fall back to the short key alias. -/
def resolveField (cols : List String) (key pretty : String) : Option String :=
  match findColumnByName cols pretty with
  | some c => some c
  | none => findColumnByName cols key

/-- Source, `w2.py` lines 101–106: the four required fields,
`short key ↦ display name`. -/
def requiredFields : List (String × String) :=
  [("msku", "MSKU"), ("disposition", "Disposition"),
   ("balance", "Ending Warehouse Balance"), ("location", "Location")]

/-- The fixed first part of the schema error message
(`w2.py` lines 117–119); the f-string appends the header list after it. -/
def schemaErrorHead : String :=
  "CSV is missing required columns. Required: MSKU, Disposition, Ending Warehouse Balance, Location\nFound: "

/-- A single-quote character, written via its code point. -/
def sq : String :=
  String.singleton (Char.ofNat 39)

/-- Python's `f"{list(cols)}"` rendering of a list of plain strings:
square brackets, comma-plus-space separated, each element single-quoted. -/
def pyReprList (cols : List String) : String :=
  "[" ++ String.intercalate ", " (cols.map (fun c => sq ++ c ++ sq)) ++ "]"

/-- The full message of the user-facing schema error (`w2.py` lines 117–120). -/
def schemaErrorMessage (cols : List String) : String :=
  schemaErrorHead ++ pyReprList cols

/-- Source, `w2.py` lines 99–121: strip all headers, resolve the four required
fields, and fail with the schema error when any field is unresolved;
on success the four resolved header names are returned. -/
def ingestColumns (rawCols : List String) : Except String (List String) :=
  let cols := rawCols.map pyStrip
  let found := requiredFields.map (fun kp => resolveField cols kp.1 kp.2)
  if found.all Option.isSome then Except.ok (found.filterMap id)
  else Except.error (schemaErrorMessage cols)

/-- The structured table a successful parse produces; its contents are
irrelevant to the reader's control flow, only success/failure matters. -/
structure Table where
  rows : List (List String)

/-- The state of the uploaded file object: its read cursor. -/
structure Stream where
  cursor : Nat

/-- Source, `w2.py` lines 29/36/37: `uploaded_file.seek(0)`. -/
def seekZero (_ : Stream) : Stream :=
  ⟨0⟩

/-- One parse attempt (`pd.read_csv` under one encoding/mode): from the
current stream state it returns `some` table on success or `none` when the
call raises, together with the stream state it leaves behind. -/
def Attempt : Type :=
  Stream → Option Table × Stream

/-- Source, `w2.py` lines 28–38 (`_read_csv_safe`): seek to 0, try the
default encoding, `latin1`, then `utf-8`, seeking back to 0 after every
failure, and finally fall back to the lenient skip-bad-rows parse;
`none` models the exception the final attempt would raise. -/
def readCsvSafe (tryDefault tryLatin1 tryUtf8 tryLenient : Attempt)
    (s0 : Stream) : Option Table :=
  let s1 := seekZero s0
  match tryDefault s1 with
  | (some t, _) => some t
  | (none, s2) =>
    let s3 := seekZero s2
    match tryLatin1 s3 with
    | (some t, _) => some t
    | (none, s4) =>
      let s5 := seekZero s4
      match tryUtf8 s5 with
      | (some t, _) => some t
      | (none, s6) => (tryLenient (seekZero s6)).1

/-- First non-`none` element of a list of attempt results. -/
def firstSome : List (Option Table) → Option Table
  | [] => none
  | some t :: _ => some t
  | none :: rest => firstSome rest

/-- Characters that are metacharacters of Python's `re` syntax.  The source
passes the search string to `Series.str.contains`, whose default is
`regex=True`. -/
def isRegexMeta (c : Char) : Bool :=
  c == '.' || c == '^' || c == '$' || c == '*' || c == '+' || c == '?' ||
  c == '\x7b' || c == '\x7d' || c == '[' || c == ']' || c == '(' ||
  c == ')' || c == '|' || c == '\\'

/-- Whether one pattern character matches one subject character under
Python `re`: the dot matches every character except a newline, any other
(non-metacharacter) pattern character matches only itself. -/
def tokenMatch (p c : Char) : Bool :=
  if p == '.' then !(c == '\n') else p == c

/-- Whether the pattern matches at the start of the subject.  This models
Python `re` restricted to patterns whose characters are literals or the dot
wildcard — the only fragment the theorems below use. -/
def matchesAt : List Char → List Char → Bool
  | [], _ => true
  | _ :: _, [] => false
  | p :: ps, c :: cs => tokenMatch p c && matchesAt ps cs

/-- Python `re.search` (same pattern fragment): the pattern matches at some
position of the subject.  `Series.str.contains` is exactly this test. -/
def reSearch (pat : List Char) : List Char → Bool
  | [] => matchesAt pat []
  | c :: cs => matchesAt pat (c :: cs) || reSearch pat cs

/-- Per-location totals of an aggregate, before sorting
(`w2.py` line 151, the groupby-sum part). -/
def locTotalsRaw (agg : List AggRow) : List (String × Int) :=
  ((agg.map (fun a => a.location)).dedup).map
    (fun L => (L, ((agg.filter (fun a => a.location == L)).map
      (fun a => a.balance)).sum))

/-- Insert into a descending-by-total list, before the first strictly
smaller total (stable). -/
def insertDesc (x : String × Int) : List (String × Int) → List (String × Int)
  | [] => [x]
  | y :: ys => if y.2 < x.2 then x :: y :: ys else y :: insertDesc x ys

/-- `sort_values(ascending=False)`: totals in descending order. -/
def sortDesc (l : List (String × Int)) : List (String × Int) :=
  l.foldr insertDesc []

/-- Source, `w2.py` line 151 (and 168): per-location totals of an aggregate,
sorted by total in descending order. -/
def locTotals (agg : List AggRow) : List (String × Int) :=
  sortDesc (locTotalsRaw agg)

/-- Source, `w2.py` lines 165–169: lower-case and strip the search input; if
it is non-empty keep only the aggregate rows whose lower-cased MSKU matches
it under `Series.str.contains` (a regex search), and recompute the
per-location totals from the retained rows.  Returns the rows the dashboard
goes on to render together with the recomputed totals. -/
def searchView (agg : List AggRow) (input : String) :
    List AggRow × List (String × Int) :=
  if pyLower (pyStrip input) = "" then (agg, locTotals agg)
  else
    ((agg.filter (fun a => reSearch (pyLower (pyStrip input)).data (pyLower a.msku).data)),
      locTotals (agg.filter (fun a => reSearch (pyLower (pyStrip input)).data (pyLower a.msku).data)))

/-- Modelled from the spec: the filter the claim describes — keep exactly the
rows whose msku contains the search string as a case-insensitive substring.
Stated with the same strip/lower preprocessing the source applies. -/
def specSubstrFilter (agg : List AggRow) (input : String) : List AggRow :=
  agg.filter
    (fun a => decide ((pyLower (pyStrip input)).data <:+: (pyLower a.msku).data))

/-- Decimal digit character of `n < 10`. -/
def digitChar (n : Nat) : Char :=
  Char.ofNat (48 + n)

/-- Decimal digit string, fuel-based so that the kernel can evaluate it;
any `fuel > n` gives the digits of `n`, most significant first. -/
def natDigitsFuel : Nat → Nat → List Char
  | 0, _ => []
  | fuel + 1, n =>
    if n < 10 then [digitChar n]
    else natDigitsFuel fuel (n / 10) ++ [digitChar (n % 10)]

/-- Decimal digit string of a natural number, most significant first. -/
def natDigits (n : Nat) : List Char :=
  natDigitsFuel (n + 1) n

/-- Python `str()` of an integer, as pandas prints an `int64` cell:
decimal digits with a leading minus sign for negatives. -/
def pyIntStr (i : Int) : String :=
  if i < 0 then ⟨'-' :: natDigits i.natAbs⟩ else ⟨natDigits i.natAbs⟩

/-- Whether a CSV field must be quoted under `csv.QUOTE_MINIMAL` (the
`to_csv` default): it contains the delimiter, the quote character, or a
line-break character. -/
def needsQuote (l : List Char) : Bool :=
  l.any (fun c => c == ',' || c == '\"' || c == '\n' || c == '\r')

/-- Double every quote character (the CSV escape inside a quoted field). -/
def escapeQuotes : List Char → List Char
  | [] => []
  | c :: rest =>
    if c = '\"' then '\"' :: '\"' :: escapeQuotes rest
    else c :: escapeQuotes rest

/-- Serialize one CSV field: quote and escape it only when needed. -/
def csvFieldL (f : List Char) : List Char :=
  if needsQuote f then '\"' :: (escapeQuotes f ++ ['\"']) else f

/-- Join chunks with a delimiter character between consecutive chunks. -/
def joinD (d : Char) : List (List Char) → List Char
  | [] => []
  | [x] => x
  | x :: y :: xs => x ++ d :: joinD d (y :: xs)

/-- Serialize one CSV record: comma-separated fields plus the terminating
newline `to_csv` emits after every record. -/
def csvLineL (fs : List (List Char)) : List Char :=
  joinD ',' (fs.map csvFieldL) ++ ['\n']

/-- The header record of the aggregate CSV (`w2.py` line 148 names the
columns, line 201 writes them). -/
def aggHeader : List (List Char) :=
  [("Location" : String).data, ("MSKU" : String).data,
   ("Ending Warehouse Balance" : String).data]

/-- Source, `w2.py` line 201: `agg.to_csv(index=False)` — a header record
followed by one record per aggregate row, no index column, balances printed
as decimal integers. -/
def aggToCsv (agg : List AggRow) : String :=
  ⟨csvLineL aggHeader ++
    (agg.map (fun r =>
      csvLineL [r.location.data, r.msku.data, (pyIntStr r.balance).data])).flatten⟩

/-- Prepend a character to the first chunk of a chunk list. -/
def consHead (c : Char) : List (List Char) → List (List Char)
  | [] => [[c]]
  | x :: xs => (c :: x) :: xs

/-- Split on a delimiter, ignoring delimiters inside double quotes; `q`
is the running inside-quotes flag.  This is the textual layer of a CSV
reader (the splitting `pd.read_csv` performs). -/
def splitQ (d : Char) : Bool → List Char → List (List Char)
  | _, [] => [[]]
  | q, c :: rest =>
    if c = d ∧ q = false then [] :: splitQ d false rest
    else consHead c (splitQ d (if c = '\"' then !q else q) rest)

/-- Collapse doubled quote characters (the CSV unescape). -/
def unescapeQuotes : List Char → List Char
  | [] => []
  | [c] => [c]
  | c :: c2 :: rest =>
    if c = '\"' ∧ c2 = '\"' then '\"' :: unescapeQuotes rest
    else c :: unescapeQuotes (c2 :: rest)

/-- Undo field quoting: strip the enclosing quotes and unescape, when the
field was quoted. -/
def unquoteField (l : List Char) : List Char :=
  match l with
  | [] => []
  | c :: rest => if c = '\"' then unescapeQuotes rest.dropLast else c :: rest

/-- The textual layer of `pd.read_csv` on CSV text: split into records at
unquoted newlines (dropping the empty chunk after the final newline), split
each record at unquoted commas, and unquote every field. -/
def parseCsvRows (text : String) : List (List String) :=
  ((splitQ '\n' false text.data).dropLast).map
    (fun line => (splitQ ',' false line).map (fun f => ⟨unquoteField f⟩))

/-- Parse a re-read integer cell (the type inference `pd.read_csv` applies
to the balance column): optional leading minus sign, decimal digits. -/
def readInt (s : String) : Int :=
  match s.data with
  | [] => 0
  | c :: rest => if c = '-' then -((decVal rest : Nat) : Int) else (decVal (c :: rest) : Int)

/-- Re-parse an aggregate CSV: check the header record and rebuild the
`(location, msku, balance)` rows. -/
def fromCsv (text : String) : Option (List AggRow) :=
  match parseCsvRows text with
  | [] => none
  | header :: rows =>
    if header = ["Location", "MSKU", "Ending Warehouse Balance"] then
      rows.mapM (fun r =>
        match r with
        | [l, m, b] => some (⟨l, m, readInt b⟩ : AggRow)
        | _ => none)
    else none

/-- The inside-quotes flag after scanning a character list, starting from
`q`; every quote character toggles it. -/
def scanQ (q : Bool) (l : List Char) : Bool :=
  l.foldl (fun q c => if c = '\"' then !q else q) q

/-- Whether the list contains the delimiter at quoting top level, scanning
from inside-quotes state `q`. -/
def hasTopDelim (d : Char) : Bool → List Char → Bool
  | _, [] => false
  | q, c :: rest =>
    if c = d ∧ q = false then true
    else hasTopDelim d (if c = '\"' then !q else q) rest

/-- Prepend a chunk to the first chunk of a chunk list. -/
def consHeadL (x : List Char) : List (List Char) → List (List Char)
  | [] => [x]
  | h :: t => (x ++ h) :: t

/-! ### Lemmas about stripping and case mapping -/

theorem dropWhile_of_head_false {p : α → Bool} {l : List α}
    (h : ∀ c, l.head? = some c → p c = false) : l.dropWhile p = l := by
  cases l with
  | nil => rfl
  | cons c t =>
    have := h c rfl
    simp [List.dropWhile_cons, this]

theorem head_false_of_dropWhile {p : α → Bool} {l : List α} {c : α}
    (h : (l.dropWhile p).head? = some c) : p c = false := by
  have := List.head?_dropWhile_not p l
  rw [h] at this
  exact this

theorem head?_eq_of_prefixes {l₁ l₂ : List α} (h : l₁ <+: l₂) (hne : l₁ ≠ []) :
    l₂.head? = l₁.head? := by
  obtain ⟨t, rfl⟩ := h
  cases l₁ with
  | nil => exact absurd rfl hne
  | cons c r => rfl

theorem stripChars_idem (l : List Char) :
    stripChars (stripChars l) = stripChars l := by
  unfold stripChars
  set ws := Char.isWhitespace with hws
  set a := l.dropWhile ws with ha
  set b := a.reverse.dropWhile ws with hb
  have hbsuffix : b <:+ a.reverse := List.dropWhile_suffix ws
  have hbrev : b.reverse <+: a := by
    rw [← List.reverse_suffix, List.reverse_reverse]
    exact hbsuffix
  have h1 : b.reverse.dropWhile ws = b.reverse := by
    apply dropWhile_of_head_false
    intro c hc
    have hbne : b.reverse ≠ [] := by
      intro hnil
      rw [hnil] at hc
      exact (by simp at hc)
    have : a.head? = some c := by
      rw [head?_eq_of_prefixes hbrev hbne, hc]
    apply head_false_of_dropWhile (p := ws) (l := l)
    rw [← ha, this]
  rw [h1]
  have h2 : b.reverse.reverse.dropWhile ws = b := by
    rw [List.reverse_reverse]
    apply dropWhile_of_head_false
    intro c hc
    exact head_false_of_dropWhile (p := ws) (l := a.reverse) (by rw [← hb, hc])
  rw [h2]

theorem upperChar_ws (c : Char) :
    (upperChar c).isWhitespace = c.isWhitespace := by
  unfold upperChar
  cases h : upperPairs.find? (fun p => p.1 == c) with
  | none => rfl
  | some p =>
    have hmem : p ∈ upperPairs := List.mem_of_find?_eq_some h
    have hpred : (p.1 == c) = true :=
      List.find?_some (p := fun q : Char × Char => q.1 == c) h
    have hc : p.1 = c := by exact beq_iff_eq.mp hpred
    have hfacts : ∀ q ∈ upperPairs,
        q.1.isWhitespace = false ∧ q.2.isWhitespace = false := by decide
    have := hfacts p hmem
    rw [← hc, this.1, this.2]

theorem upperChar_idem (c : Char) : upperChar (upperChar c) = upperChar c := by
  cases h : upperPairs.find? (fun p => p.1 == c) with
  | none =>
    have hc : upperChar c = c := by unfold upperChar; rw [h]
    rw [hc, hc]
  | some p =>
    have hmem : p ∈ upperPairs := List.mem_of_find?_eq_some h
    have hc : upperChar c = p.2 := by unfold upperChar; rw [h]
    have hnone : ∀ q ∈ upperPairs,
        upperPairs.find? (fun r => r.1 == q.2) = none := by decide
    rw [hc]
    unfold upperChar
    rw [hnone p hmem]

theorem stripChars_map_comm {u : Char → Char}
    (hu : ∀ c, (u c).isWhitespace = c.isWhitespace) (l : List Char) :
    stripChars (l.map u) = (stripChars l).map u := by
  have hpred : (Char.isWhitespace ∘ u) = Char.isWhitespace := by
    funext c
    exact hu c
  unfold stripChars
  rw [List.dropWhile_map, hpred, ← List.map_reverse, List.dropWhile_map,
    hpred, ← List.map_reverse]

theorem pyUpper_pyStrip_idem (s : String) :
    pyUpper (pyStrip (pyUpper (pyStrip s))) = pyUpper (pyStrip s) := by
  unfold pyUpper pyStrip
  simp only
  rw [stripChars_map_comm upperChar_ws, stripChars_idem, List.map_map]
  congr 1
  apply List.map_congr_left
  intro c _
  exact upperChar_idem c

theorem normDisp_idem (cell : Option String) :
    normDisp (some (normDisp cell)) = normDisp cell := by
  show pyUpper (pyStrip (normDisp cell)) = normDisp cell
  unfold normDisp
  exact pyUpper_pyStrip_idem (pyStrCast cell)

/-! ### Lemmas about decimal digits and the balance normalizer -/

theorem digitChar_toNat {d : Nat} (h : d < 10) :
    (digitChar d).toNat = 48 + d := by
  interval_cases d <;> decide

theorem digitChar_isDigit {d : Nat} (h : d < 10) :
    (digitChar d).isDigit = true := by
  interval_cases d <;> decide

theorem decVal_append_single (l : List Char) (c : Char) :
    decVal (l ++ [c]) = 10 * decVal l + (c.toNat - 48) := by
  unfold decVal
  rw [List.foldl_append]
  rfl

theorem decVal_natDigitsFuel {fuel n : Nat} (h : n < fuel) :
    decVal (natDigitsFuel fuel n) = n := by
  induction fuel generalizing n with
  | zero => omega
  | succ fuel ih =>
    rw [natDigitsFuel]
    split
    · next hlt =>
      show 10 * 0 + ((digitChar n).toNat - 48) = n
      rw [digitChar_toNat hlt]
      omega
    · next hge =>
      rw [decVal_append_single, ih (by omega), digitChar_toNat (by omega)]
      omega

theorem decVal_natDigits (n : Nat) : decVal (natDigits n) = n :=
  decVal_natDigitsFuel (by omega)

theorem natDigitsFuel_digits {fuel n : Nat} (h : n < fuel) :
    ∀ c ∈ natDigitsFuel fuel n, c.isDigit = true := by
  induction fuel generalizing n with
  | zero => omega
  | succ fuel ih =>
    rw [natDigitsFuel]
    split
    · next hlt =>
      intro c hc
      rw [List.mem_singleton] at hc
      rw [hc]
      exact digitChar_isDigit hlt
    · next hge =>
      intro c hc
      rw [List.mem_append] at hc
      rcases hc with hc | hc
      · exact ih (by omega) c hc
      · rw [List.mem_singleton] at hc
        rw [hc]
        exact digitChar_isDigit (by omega)

theorem natDigits_digits (n : Nat) : ∀ c ∈ natDigits n, c.isDigit = true :=
  natDigitsFuel_digits (by omega)

theorem natDigitsFuel_ne_nil {fuel n : Nat} (h : n < fuel) :
    natDigitsFuel fuel n ≠ [] := by
  cases fuel with
  | zero => omega
  | succ fuel =>
    rw [natDigitsFuel]
    split
    · simp
    · simp

theorem natDigits_ne_nil (n : Nat) : natDigits n ≠ [] :=
  natDigitsFuel_ne_nil (by omega)

theorem digit_facts {c : Char} (h : c.isDigit = true) :
    (c == ',') = false ∧ (c == '-') = false ∧ (c == '\"') = false ∧
    (c == '\n') = false ∧ (c == '\r') = false ∧ c ≠ '-' := by
  refine ⟨?_, ?_, ?_, ?_, ?_, ?_⟩ <;>
    first
    | (cases hq : (c == _) with
       | false => rfl
       | true =>
         rw [beq_iff_eq.mp hq] at h
         exact absurd h (by decide))
    | (intro hq
       rw [hq] at h
       exact absurd h (by decide))

theorem parseMantissa_digits {l : List Char} (hne : l ≠ [])
    (hd : ∀ c ∈ l, c.isDigit = true) :
    parseMantissa l = some (decVal l) := by
  unfold parseMantissa
  rw [List.takeWhile_eq_self_iff.mpr (by exact fun c hc => hd c hc),
    List.dropWhile_eq_nil_iff.mpr (by exact fun c hc => hd c hc)]
  simp only [List.isEmpty_iff, hne, if_false]

theorem cleanBalance_digits_minus {s : String}
    (hd : ∀ c ∈ s.data, c.isDigit = true ∨ c = '-') :
    cleanBalance s = s := by
  unfold cleanBalance
  have h1 : s.data.filter (fun c => !(c == ',')) = s.data := by
    apply List.filter_eq_self.mpr
    intro c hc
    rcases hd c hc with h | h
    · rw [(digit_facts h).1]
      rfl
    · rw [h]
      rfl
  rw [h1]
  have h2 : s.data.filter (fun c => c.isDigit || c == '.' || c == '-') = s.data := by
    apply List.filter_eq_self.mpr
    intro c hc
    rcases hd c hc with h | h
    · rw [h]
      rfl
    · rw [h]
      rfl
  rw [h2]

theorem pyIntStr_data (i : Int) :
    (pyIntStr i).data =
      if i < 0 then '-' :: natDigits i.natAbs else natDigits i.natAbs := by
  unfold pyIntStr
  split <;> rfl

theorem normalizeBalance_pyIntStr (i : Int) :
    normalizeBalance (some (pyIntStr i)) = i := by
  have hdig := natDigits_digits i.natAbs
  have hne := natDigits_ne_nil i.natAbs
  have hclean : cleanBalance (pyIntStr i) = pyIntStr i := by
    apply cleanBalance_digits_minus
    rw [pyIntStr_data]
    split
    · intro c hc
      rw [List.mem_cons] at hc
      rcases hc with rfl | hc
      · right
        rfl
      · exact Or.inl (hdig c hc)
    · intro c hc
      exact Or.inl (hdig c hc)
  unfold normalizeBalance
  show (match parseCleaned (cleanBalance (pyIntStr i)) with
        | some j => j | none => 0) = i
  rw [hclean]
  unfold parseCleaned
  rw [pyIntStr_data]
  by_cases hneg : i < 0
  · rw [if_pos hneg]
    show (match (if ('-' : Char) = '-' then
          (parseMantissa (natDigits i.natAbs)).map (fun n => -(n : Int))
        else (parseMantissa ('-' :: natDigits i.natAbs)).map (fun n => (n : Int))) with
        | some j => j | none => 0) = i
    rw [if_pos rfl, parseMantissa_digits hne hdig, decVal_natDigits]
    show -(i.natAbs : Int) = i
    omega
  · rw [if_neg hneg]
    cases hd : natDigits i.natAbs with
    | nil => exact absurd hd hne
    | cons c rest =>
      have hcdig : c.isDigit = true := hdig c (by rw [hd]; exact List.mem_cons_self c rest)
      show (match (if c = '-' then
            (parseMantissa rest).map (fun n => -(n : Int))
          else (parseMantissa (c :: rest)).map (fun n => (n : Int))) with
          | some j => j | none => 0) = i
      rw [if_neg (digit_facts hcdig).2.2.2.2.2, ← hd,
        parseMantissa_digits hne hdig, decVal_natDigits]
      show (i.natAbs : Int) = i
      omega

theorem readInt_pyIntStr (i : Int) : readInt (pyIntStr i) = i := by
  unfold readInt
  rw [pyIntStr_data]
  by_cases hneg : i < 0
  · rw [if_pos hneg]
    show (if ('-' : Char) = '-' then -((decVal (natDigits i.natAbs) : Nat) : Int)
          else (decVal ('-' :: natDigits i.natAbs) : Int)) = i
    rw [if_pos rfl, decVal_natDigits]
    omega
  · rw [if_neg hneg]
    cases hd : natDigits i.natAbs with
    | nil => exact absurd hd (natDigits_ne_nil _)
    | cons c rest =>
      have hcdig : c.isDigit = true :=
        natDigits_digits i.natAbs c (by rw [hd]; exact List.mem_cons_self c rest)
      show (if c = '-' then -((decVal rest : Nat) : Int)
            else (decVal (c :: rest) : Int)) = i
      rw [if_neg (digit_facts hcdig).2.2.2.2.2, ← hd, decVal_natDigits]
      omega

/-! ### Lemmas about filtering and aggregation -/

theorem filter_subpred {p q : α → Bool} (h : ∀ a, p a = true → q a = true)
    (l : List α) : (l.filter q).filter p = l.filter p := by
  rw [List.filter_filter]
  apply List.filter_congr
  intro a _
  cases hp : p a
  · simp
  · simp [h a hp]

theorem sellable_needs_disposition (r : RawRow)
    (h : (normDisp r.disposition == "SELLABLE") = true) :
    r.disposition.isSome = true := by
  cases hd : r.disposition with
  | none =>
    rw [hd] at h
    exact absurd h (by decide)
  | some s => rfl

theorem sellableRows_disposition_filter (t : List RawRow) :
    sellableRows t = sellableRows (t.filter (fun r => r.disposition.isSome)) := by
  unfold sellableRows
  exact (filter_subpred sellable_needs_disposition t).symm

theorem key_needs_msku (k : String × String) (r : RawRow)
    (h : (keyOf r == some k) = true) : r.msku.isSome = true := by
  cases hm : r.msku with
  | none =>
    unfold keyOf at h
    rw [hm] at h
    simp at h
  | some m => rfl

theorem filter_comm_bool (p q : α → Bool) (l : List α) :
    (l.filter p).filter q = (l.filter q).filter p := by
  rw [List.filter_filter, List.filter_filter]
  apply List.filter_congr
  intro a _
  rw [Bool.and_comm]

theorem filterMap_keyOf_msku (rows : List RawRow) :
    (rows.filter (fun r => r.msku.isSome)).filterMap keyOf =
      rows.filterMap keyOf := by
  induction rows with
  | nil => rfl
  | cons r rows ih =>
    cases hm : r.msku with
    | none =>
      have hk : keyOf r = none := by unfold keyOf; rw [hm]; rfl
      simp [List.filter_cons, List.filterMap_cons, hm, hk, ih]
    | some m =>
      have hk : keyOf r = some (normLoc r.location, m) := by
        unfold keyOf
        rw [hm]
        rfl
      simp [List.filter_cons, List.filterMap_cons, hm, hk, ih]

theorem groupSum_msku_filter (rows : List RawRow) (k : String × String) :
    groupSum (rows.filter (fun r => r.msku.isSome)) k = groupSum rows k := by
  unfold groupSum
  rw [filter_subpred (key_needs_msku k) rows]

theorem aggregate_msku_filter (t : List RawRow) :
    aggregate (t.filter (fun r => r.msku.isSome)) = aggregate t := by
  unfold aggregate
  have hsell : sellableRows (t.filter (fun r => r.msku.isSome)) =
      (sellableRows t).filter (fun r => r.msku.isSome) := by
    unfold sellableRows
    exact filter_comm_bool _ _ t
  rw [hsell]
  unfold keysOf
  rw [filterMap_keyOf_msku]
  apply List.map_congr_left
  intro k _
  rw [groupSum_msku_filter]

theorem groupSum_cons (r : RawRow) (rows : List RawRow) (k : String × String) :
    groupSum (r :: rows) k =
      (if (keyOf r == some k) = true then normalizeBalance r.balance else 0) +
        groupSum rows k := by
  unfold groupSum
  rw [List.filter_cons]
  split
  · rw [List.map_cons, List.sum_cons]
  · omega

theorem sum_if_eq_single {k0 : String × String} {L : List (String × String)}
    (hnd : L.Nodup) (hmem : k0 ∈ L) (x : Int) :
    (L.map (fun k => if (some k0 == some k : Bool) = true then x else 0)).sum = x := by
  induction L with
  | nil => exact absurd hmem (List.not_mem_nil k0)
  | cons k L ih =>
    rw [List.map_cons, List.sum_cons]
    by_cases hk : k0 = k
    · have hnotin : k0 ∉ L := by
        rw [hk]
        exact (List.nodup_cons.mp hnd).1
      have hzero : (L.map (fun k => if (some k0 == some k : Bool) = true then x else 0)).sum = 0 := by
        apply List.sum_eq_zero
        intro y hy
        rw [List.mem_map] at hy
        obtain ⟨k', hk', rfl⟩ := hy
        rw [if_neg]
        intro hbeq
        have : k0 = k' := by
          have := beq_iff_eq.mp hbeq
          exact Option.some.inj this
        exact hnotin (this ▸ hk')
      rw [hzero, if_pos (by rw [hk]; exact beq_iff_eq.mpr rfl)]
      omega
    · rw [if_neg]
      · have hmem' : k0 ∈ L := by
          rcases List.mem_cons.mp hmem with h | h
          · exact absurd h hk
          · exact h
        rw [ih (List.nodup_cons.mp hnd).2 hmem']
        omega
      · intro hbeq
        exact hk (Option.some.inj (beq_iff_eq.mp hbeq))

theorem sum_groupSums (rows : List RawRow) (L : List (String × String))
    (hnd : L.Nodup)
    (hcov : ∀ r ∈ rows, ∀ k, keyOf r = some k → k ∈ L) :
    (L.map (fun k => groupSum rows k)).sum =
      ((rows.filter (fun r => (keyOf r).isSome)).map
        (fun r => normalizeBalance r.balance)).sum := by
  induction rows with
  | nil =>
    have : (L.map (fun k => groupSum ([] : List RawRow) k)).sum = 0 := by
      apply List.sum_eq_zero
      intro y hy
      rw [List.mem_map] at hy
      obtain ⟨k, _, rfl⟩ := hy
      rfl
    rw [this]
    rfl
  | cons r rows ih =>
    have hsplit : (L.map (fun k => groupSum (r :: rows) k)).sum =
        (L.map (fun k =>
          if (keyOf r == some k) = true then normalizeBalance r.balance else 0)).sum +
          (L.map (fun k => groupSum rows k)).sum := by
      rw [← List.sum_map_add]
      apply congrArg
      apply List.map_congr_left
      intro k _
      exact groupSum_cons r rows k
    rw [hsplit, ih (fun r' hr' => hcov r' (List.mem_cons_of_mem r hr'))]
    rw [List.filter_cons]
    have hmemhead := hcov r (List.mem_cons_self r rows)
    cases hk : keyOf r with
    | none =>
      have hfirst : (L.map (fun k =>
          if ((none : Option (String × String)) == some k) = true
          then normalizeBalance r.balance else 0)).sum = 0 := by
        apply List.sum_eq_zero
        intro y hy
        rw [List.mem_map] at hy
        obtain ⟨k, _, rfl⟩ := hy
        rw [if_neg]
        intro hb
        simp at hb
      rw [hfirst]
      simp only [Option.isSome_none, Bool.false_eq_true, if_false]
      omega
    | some k0 =>
      have hfirst : (L.map (fun k =>
          if (some k0 == some k : Bool) = true
          then normalizeBalance r.balance else 0)).sum =
          normalizeBalance r.balance :=
        sum_if_eq_single hnd (hmemhead k0 hk) _
      rw [hfirst]
      simp only [Option.isSome_some, if_true, List.map_cons, List.sum_cons]

theorem not_meta_not_dot {c : Char} (h : isRegexMeta c = false) :
    (c == '.') = false := by
  cases hq : (c == '.') with
  | false => rfl
  | true =>
    rw [beq_iff_eq.mp hq] at h
    exact absurd h (by decide)

theorem matchesAt_literal {pat : List Char}
    (hlit : ∀ p ∈ pat, (p == '.') = false) :
    ∀ s, matchesAt pat s = true ↔ pat <+: s := by
  induction pat with
  | nil =>
    intro s
    simp [matchesAt]
  | cons p ps ih =>
    intro s
    cases s with
    | nil =>
      simp [matchesAt]
    | cons c cs =>
      show (tokenMatch p c && matchesAt ps cs) = true ↔ _
      unfold tokenMatch
      rw [hlit p (List.mem_cons_self p ps), if_neg (by simp)]
      rw [Bool.and_eq_true, List.cons_prefix_cons,
        ih (fun q hq => hlit q (List.mem_cons_of_mem p hq)) cs, beq_iff_eq]

theorem reSearch_literal {pat : List Char}
    (hlit : ∀ p ∈ pat, (p == '.') = false) :
    ∀ s, reSearch pat s = true ↔ pat <:+: s := by
  intro s
  induction s with
  | nil =>
    show matchesAt pat [] = true ↔ _
    rw [matchesAt_literal hlit, List.infix_nil, List.prefix_nil]
  | cons c cs ih =>
    show (matchesAt pat (c :: cs) || reSearch pat cs) = true ↔ _
    rw [Bool.or_eq_true, matchesAt_literal hlit, ih, List.infix_cons_iff]

theorem specSubstrFilter_empty {agg : List AggRow} {input : String}
    (hs : pyLower (pyStrip input) = "") : specSubstrFilter agg input = agg := by
  unfold specSubstrFilter
  apply List.filter_eq_self.mpr
  intro a _
  rw [hs]
  simp

theorem searchView_substring (agg : List AggRow) (input : String)
    (hlit : ∀ c ∈ (pyLower (pyStrip input)).data, isRegexMeta c = false) :
    (searchView agg input).1 = specSubstrFilter agg input ∧
      (searchView agg input).2 = locTotals (specSubstrFilter agg input) := by
  have hdot : ∀ p ∈ (pyLower (pyStrip input)).data, (p == '.') = false :=
    fun p hp => not_meta_not_dot (hlit p hp)
  have hfilter : agg.filter
      (fun a => reSearch (pyLower (pyStrip input)).data (pyLower a.msku).data) =
      specSubstrFilter agg input := by
    unfold specSubstrFilter
    apply List.filter_congr
    intro a _
    rw [Bool.eq_iff_iff, reSearch_literal hdot, decide_eq_true_iff]
  unfold searchView
  by_cases hs : pyLower (pyStrip input) = ""
  · rw [if_pos hs, specSubstrFilter_empty hs]
    exact ⟨rfl, rfl⟩
  · rw [if_neg hs, hfilter]
    exact ⟨rfl, rfl⟩

theorem aggTotal_eq_msku_present (t : List RawRow) :
    aggTotal t =
      (((sellableRows t).filter (fun r => r.msku.isSome)).map
        (fun r => normalizeBalance r.balance)).sum := by
  unfold aggTotal aggregate
  rw [List.map_map]
  have hmap : ((keysOf (sellableRows t)).map
      (fun k => ((⟨k.1, k.2, groupSum (sellableRows t) k⟩ : AggRow)).balance)) =
      (keysOf (sellableRows t)).map (fun k => groupSum (sellableRows t) k) := rfl
  show ((keysOf (sellableRows t)).map
      (fun k => groupSum (sellableRows t) k)).sum = _
  rw [sum_groupSums (sellableRows t) (keysOf (sellableRows t))
    (List.nodup_dedup _)
    (fun r hr k hk => List.mem_dedup.mpr (List.mem_filterMap.mpr ⟨r, hr, hk⟩))]
  apply congrArg
  apply congrArg
  apply List.filter_congr
  intro r _
  unfold keyOf
  rw [Option.isSome_map']

/-! ### Lemmas about the CSV writer and reader -/

theorem scanQ_nil (q : Bool) : scanQ q [] = q := rfl

theorem scanQ_cons (q : Bool) (c : Char) (l : List Char) :
    scanQ q (c :: l) = scanQ (if c = '\"' then !q else q) l := rfl

theorem scanQ_append (q : Bool) (a b : List Char) :
    scanQ q (a ++ b) = scanQ (scanQ q a) b := by
  unfold scanQ
  rw [List.foldl_append]

theorem consHead_ne_nil (c : Char) (L : List (List Char)) :
    consHead c L ≠ [] := by
  cases L <;> simp [consHead]

theorem splitQ_ne_nil (d : Char) (q : Bool) (l : List Char) :
    splitQ d q l ≠ [] := by
  cases l with
  | nil => simp [splitQ]
  | cons c rest =>
    simp only [splitQ]
    split
    · simp
    · exact consHead_ne_nil c _

theorem consHead_consHeadL (c : Char) (x : List Char) (L : List (List Char)) :
    consHead c (consHeadL x L) = consHeadL (c :: x) L := by
  cases L <;> rfl

theorem splitQ_append_safe (d : Char) :
    ∀ (x : List Char) (q : Bool) (y : List Char),
      hasTopDelim d q x = false →
      splitQ d q (x ++ y) = consHeadL x (splitQ d (scanQ q x) y) := by
  intro x
  induction x with
  | nil =>
    intro q y _
    rw [List.nil_append, scanQ_nil]
    cases hL : splitQ d q y with
    | nil => exact absurd hL (splitQ_ne_nil d q y)
    | cons h t => rfl
  | cons c x ih =>
    intro q y h
    rw [hasTopDelim] at h
    by_cases hc : c = d ∧ q = false
    · rw [if_pos hc] at h
      exact absurd h (by simp)
    · rw [if_neg hc] at h
      rw [List.cons_append]
      simp only [splitQ]
      rw [if_neg hc, ih _ y h, scanQ_cons, consHead_consHeadL]

theorem splitQ_cons_eq (d : Char) (q : Bool) (c : Char) (rest : List Char) :
    splitQ d q (c :: rest) =
      if c = d ∧ q = false then [] :: splitQ d false rest
      else consHead c (splitQ d (if c = '\"' then !q else q) rest) := rfl

theorem hasTopDelim_cons (d : Char) (q : Bool) (c : Char) (rest : List Char) :
    hasTopDelim d q (c :: rest) =
      if c = d ∧ q = false then true
      else hasTopDelim d (if c = '\"' then !q else q) rest := rfl

theorem splitQ_delim (d : Char) (y : List Char) :
    splitQ d false (d :: y) = [] :: splitQ d false y := by
  rw [splitQ_cons_eq, if_pos ⟨rfl, rfl⟩]

theorem splitQ_safe {d : Char} {x : List Char} {q : Bool}
    (h : hasTopDelim d q x = false) : splitQ d q x = [x] := by
  have := splitQ_append_safe d x q [] h
  rw [List.append_nil] at this
  rw [this]
  show consHeadL x [[]] = [x]
  simp [consHeadL]

theorem hasTopDelim_append (d : Char) :
    ∀ (a : List Char) (q : Bool) (b : List Char),
      hasTopDelim d q (a ++ b) =
        (hasTopDelim d q a || hasTopDelim d (scanQ q a) b) := by
  intro a
  induction a with
  | nil =>
    intro q b
    rw [List.nil_append, scanQ_nil]
    show hasTopDelim d q b = (false || hasTopDelim d q b)
    rw [Bool.false_or]
  | cons c a ih =>
    intro q b
    rw [List.cons_append]
    simp only [hasTopDelim]
    by_cases hc : c = d ∧ q = false
    · rw [if_pos hc, if_pos hc, Bool.true_or]
    · rw [if_neg hc, if_neg hc, ih, scanQ_cons]

theorem scanQ_no_quote : ∀ {l : List Char} (q : Bool),
    (∀ c ∈ l, c ≠ '\"') → scanQ q l = q := by
  intro l
  induction l with
  | nil => intro q _; rfl
  | cons c l ih =>
    intro q h
    rw [scanQ_cons, if_neg (h c (List.mem_cons_self c l))]
    exact ih q (fun c' hc' => h c' (List.mem_cons_of_mem c hc'))

theorem hasTopDelim_no_special {d : Char} : ∀ {l : List Char} (q : Bool),
    (∀ c ∈ l, c ≠ d ∧ c ≠ '\"') → hasTopDelim d q l = false := by
  intro l
  induction l with
  | nil => intro q _; rfl
  | cons c l ih =>
    intro q h
    have hc := h c (List.mem_cons_self c l)
    simp only [hasTopDelim]
    rw [if_neg (fun hand => hc.1 hand.1), if_neg hc.2]
    exact ih q (fun c' hc' => h c' (List.mem_cons_of_mem c hc'))

theorem escapeQuotes_cons (c : Char) (m : List Char) :
    escapeQuotes (c :: m) =
      if c = '\"' then '\"' :: '\"' :: escapeQuotes m
      else c :: escapeQuotes m := rfl

theorem scanQ_escape (m : List Char) : scanQ true (escapeQuotes m) = true := by
  induction m with
  | nil => rfl
  | cons c m ih =>
    rw [escapeQuotes_cons]
    by_cases hc : c = '\"'
    · rw [if_pos hc, scanQ_cons, if_pos rfl, scanQ_cons, if_pos rfl]
      exact ih
    · rw [if_neg hc, scanQ_cons, if_neg hc]
      exact ih

theorem hasTopDelim_escape {d : Char} (hd : d ≠ '\"') (m : List Char) :
    hasTopDelim d true (escapeQuotes m) = false := by
  induction m with
  | nil => rfl
  | cons c m ih =>
    rw [escapeQuotes_cons]
    by_cases hc : c = '\"'
    · rw [if_pos hc, hasTopDelim_cons,
        if_neg (fun hand => absurd hand.2 (by decide))]
      show hasTopDelim d false ('\"' :: escapeQuotes m) = false
      rw [hasTopDelim_cons, if_neg (fun hand => hd hand.1.symm)]
      show hasTopDelim d true (escapeQuotes m) = false
      exact ih
    · rw [if_neg hc, hasTopDelim_cons,
        if_neg (fun hand => absurd hand.2 (by decide)), if_neg hc]
      exact ih

theorem needsQuote_false_chars {f : List Char} (h : needsQuote f = false) :
    ∀ c ∈ f, c ≠ ',' ∧ c ≠ '\"' ∧ c ≠ '\n' ∧ c ≠ '\r' := by
  intro c hc
  unfold needsQuote at h
  rw [List.any_eq_false] at h
  have := h c hc
  simp at this
  obtain ⟨⟨⟨h1, h2⟩, h3⟩, h4⟩ := this
  exact ⟨h1, h2, h3, h4⟩

theorem csvFieldL_safe {d : Char} (hd : d = ',' ∨ d = '\n') (f : List Char) :
    hasTopDelim d false (csvFieldL f) = false ∧
      scanQ false (csvFieldL f) = false := by
  have hdq : d ≠ '\"' := by rcases hd with rfl | rfl <;> decide
  unfold csvFieldL
  by_cases hq : needsQuote f
  · rw [if_pos hq]
    constructor
    · rw [hasTopDelim_cons, if_neg (fun hand => hdq hand.1.symm)]
      show hasTopDelim d true (escapeQuotes f ++ ['\"']) = false
      rw [hasTopDelim_append, hasTopDelim_escape hdq, scanQ_escape, Bool.false_or,
        hasTopDelim_cons, if_neg (fun hand => absurd hand.2 (by decide))]
      show hasTopDelim d false [] = false
      rfl
    · rw [scanQ_cons]
      show scanQ true (escapeQuotes f ++ ['\"']) = false
      rw [scanQ_append, scanQ_escape]
      rfl
  · rw [if_neg hq]
    have hq' : needsQuote f = false := by
      cases h2 : needsQuote f
      · rfl
      · exact absurd h2 hq
    have hchars := needsQuote_false_chars hq'
    constructor
    · apply hasTopDelim_no_special
      intro c hc
      have := hchars c hc
      rcases hd with rfl | rfl
      · exact ⟨this.1, this.2.1⟩
      · exact ⟨this.2.2.1, this.2.1⟩
    · apply scanQ_no_quote
      intro c hc
      exact (hchars c hc).2.1

theorem joinD_cons2 (d : Char) (g g2 : List Char) (gs : List (List Char)) :
    joinD d (g :: g2 :: gs) = g ++ d :: joinD d (g2 :: gs) := rfl

theorem joinD_newline_safe (gs : List (List Char))
    (h : ∀ g ∈ gs, hasTopDelim '\n' false g = false ∧ scanQ false g = false) :
    hasTopDelim '\n' false (joinD ',' gs) = false ∧
      scanQ false (joinD ',' gs) = false := by
  induction gs with
  | nil => exact ⟨rfl, rfl⟩
  | cons g gs ih =>
    cases gs with
    | nil => exact h g (List.mem_cons_self g [])
    | cons g2 gs' =>
      have hg := h g (List.mem_cons_self g _)
      have hrest := ih (fun g' hg' => h g' (List.mem_cons_of_mem g hg'))
      rw [joinD_cons2]
      constructor
      · rw [hasTopDelim_append, hg.1, hg.2, Bool.false_or, hasTopDelim_cons,
          if_neg (fun hand => absurd hand.1 (by decide))]
        show hasTopDelim '\n' false (joinD ',' (g2 :: gs')) = false
        exact hrest.1
      · rw [scanQ_append, hg.2, scanQ_cons]
        show scanQ false (joinD ',' (g2 :: gs')) = false
        exact hrest.2

theorem splitQ_joinD (gs : List (List Char)) (hne : gs ≠ [])
    (h : ∀ g ∈ gs, hasTopDelim ',' false g = false ∧ scanQ false g = false) :
    splitQ ',' false (joinD ',' gs) = gs := by
  induction gs with
  | nil => exact absurd rfl hne
  | cons g gs ih =>
    cases gs with
    | nil => exact splitQ_safe (h g (List.mem_cons_self g [])).1
    | cons g2 gs' =>
      have hg := h g (List.mem_cons_self g _)
      rw [joinD_cons2, splitQ_append_safe ',' g false _ hg.1, hg.2, splitQ_delim]
      rw [ih (by simp) (fun g' hg' => h g' (List.mem_cons_of_mem g hg'))]
      show (g ++ []) :: g2 :: gs' = g :: g2 :: gs'
      rw [List.append_nil]

theorem splitQ_lines (Bs : List (List Char))
    (h : ∀ B ∈ Bs, hasTopDelim '\n' false B = false ∧ scanQ false B = false) :
    splitQ '\n' false ((Bs.map (fun B => B ++ ['\n'])).flatten) = Bs ++ [[]] := by
  induction Bs with
  | nil => rfl
  | cons B Bs ih =>
    have hB := h B (List.mem_cons_self B Bs)
    rw [List.map_cons, List.flatten_cons, List.append_assoc,
      List.singleton_append, splitQ_append_safe '\n' B false _ hB.1, hB.2,
      splitQ_delim, ih (fun B' hB' => h B' (List.mem_cons_of_mem B hB'))]
    show (B ++ []) :: (Bs ++ [[]]) = B :: (Bs ++ [[]])
    rw [List.append_nil]

theorem escapeQuotes_eq_nil {m : List Char} : escapeQuotes m = [] ↔ m = [] := by
  cases m with
  | nil => simp [escapeQuotes]
  | cons c m =>
    rw [escapeQuotes_cons]
    split <;> simp

theorem unescape_escape (m : List Char) :
    unescapeQuotes (escapeQuotes m) = m := by
  induction m with
  | nil => rfl
  | cons c rest ih =>
    rw [escapeQuotes_cons]
    by_cases hc : c = '\"'
    · rw [if_pos hc]
      show (if ('\"' : Char) = '\"' ∧ ('\"' : Char) = '\"'
          then '\"' :: unescapeQuotes (escapeQuotes rest)
          else '\"' :: unescapeQuotes ('\"' :: escapeQuotes rest)) = c :: rest
      rw [if_pos ⟨rfl, rfl⟩, ih, hc]
    · rw [if_neg hc]
      cases hE : escapeQuotes rest with
      | nil =>
        rw [escapeQuotes_eq_nil.mp hE]
        rfl
      | cons e E =>
        show (if c = '\"' ∧ e = '\"'
            then '\"' :: unescapeQuotes E
            else c :: unescapeQuotes (e :: E)) = c :: rest
        rw [if_neg (fun hand => hc hand.1), ← hE, ih]

theorem unquote_csvField (f : List Char) : unquoteField (csvFieldL f) = f := by
  unfold csvFieldL
  by_cases hq : needsQuote f
  · rw [if_pos hq]
    show unquoteField ('\"' :: (escapeQuotes f ++ ['\"'])) = f
    show (if ('\"' : Char) = '\"'
        then unescapeQuotes (escapeQuotes f ++ ['\"']).dropLast
        else '\"' :: (escapeQuotes f ++ ['\"'])) = f
    rw [if_pos rfl, List.dropLast_concat]
    exact unescape_escape f
  · rw [if_neg hq]
    have hq' : needsQuote f = false := by
      cases h2 : needsQuote f
      · rfl
      · exact absurd h2 hq
    cases f with
    | nil => rfl
    | cons c r =>
      have hc : c ≠ '\"' :=
        ((needsQuote_false_chars hq') c (List.mem_cons_self c r)).2.1
      show (if c = '\"' then unescapeQuotes r.dropLast else c :: r) = c :: r
      rw [if_neg hc]

theorem string_mk_data (s : String) : (⟨s.data⟩ : String) = s := rfl

theorem parse_line_str (fs : List (List Char)) (hne : fs ≠ []) :
    (splitQ ',' false (joinD ',' (fs.map csvFieldL))).map
      (fun f => (⟨unquoteField f⟩ : String)) =
      fs.map (fun f => (⟨f⟩ : String)) := by
  rw [splitQ_joinD _ (by simp [hne])
    (fun g hg => by
      rw [List.mem_map] at hg
      obtain ⟨f, _, rfl⟩ := hg
      exact csvFieldL_safe (Or.inl rfl) f)]
  rw [List.map_map]
  apply List.map_congr_left
  intro f _
  show (⟨unquoteField (csvFieldL f)⟩ : String) = ⟨f⟩
  rw [unquote_csvField]

theorem parseCsvRows_aggToCsv (agg : List AggRow) :
    parseCsvRows (aggToCsv agg) =
      ["Location", "MSKU", "Ending Warehouse Balance"] ::
        agg.map (fun r => [r.location, r.msku, pyIntStr r.balance]) := by
  unfold parseCsvRows aggToCsv
  show ((splitQ '\n' false
      (csvLineL aggHeader ++
        (agg.map (fun r =>
          csvLineL [r.location.data, r.msku.data,
            (pyIntStr r.balance).data])).flatten)).dropLast).map _ = _
  have htext : csvLineL aggHeader ++
      (agg.map (fun r =>
        csvLineL [r.location.data, r.msku.data,
          (pyIntStr r.balance).data])).flatten =
      (((aggHeader :: agg.map (fun r =>
          [r.location.data, r.msku.data, (pyIntStr r.balance).data])).map
        (fun fs => joinD ',' (fs.map csvFieldL))).map
          (fun B => B ++ ['\n'])).flatten := by
    rw [List.map_map, List.map_cons, List.flatten_cons, List.map_map]
    rfl
  rw [htext, splitQ_lines _ (by
    intro B hB
    rw [List.mem_map] at hB
    obtain ⟨fs, _, rfl⟩ := hB
    apply joinD_newline_safe
    intro g hg
    rw [List.mem_map] at hg
    obtain ⟨f, _, rfl⟩ := hg
    exact csvFieldL_safe (Or.inr rfl) f)]
  rw [List.dropLast_concat, List.map_map, List.map_cons, List.map_map]
  congr 1
  apply List.map_congr_left
  intro r _
  show (splitQ ',' false (joinD ','
      (List.map csvFieldL [r.location.data, r.msku.data,
        (pyIntStr r.balance).data]))).map
    (fun f => (⟨unquoteField f⟩ : String)) = _
  rw [parse_line_str _ (by simp)]
  rfl

theorem fromCsv_aggToCsv (agg : List AggRow) :
    fromCsv (aggToCsv agg) = some agg := by
  unfold fromCsv
  rw [parseCsvRows_aggToCsv]
  show (if (["Location", "MSKU", "Ending Warehouse Balance"] :
      List String) = ["Location", "MSKU", "Ending Warehouse Balance"] then
      (agg.map (fun r => [r.location, r.msku, pyIntStr r.balance])).mapM _
    else none) = some agg
  rw [if_pos rfl]
  induction agg with
  | nil => rfl
  | cons r rows ih =>
    rw [List.map_cons, List.mapM_cons, ih]
    show (Option.bind (some (⟨r.location, r.msku,
        readInt (pyIntStr r.balance)⟩ : AggRow)) fun y =>
      Option.bind (some rows) fun ys => some (y :: ys)) = some (r :: rows)
    rw [readInt_pyIntStr]
    rfl

/-! ### Concrete evaluation checks -/

example : normalizeBalance (some "1,234.9 units") = 1234 := by decide

example : normalizeBalance (some "abc") = 0 := by decide

example : normalizeBalance (some "-56") = -56 := by decide

example : normalizeBalance none = 0 := by decide

example : normDisp (some " sellable ") = "SELLABLE" := by decide

example : normDisp none = "NAN" := by decide

example :
    aggregate [⟨some "X", some "SELLABLE", some "3", some "A"⟩,
               ⟨some "X", some "Sellable", some "2", some "A"⟩] =
      [⟨"A", "X", 5⟩] := by decide

example : aggregate [⟨none, some "SELLABLE", some "5", some "A"⟩] = [] := by
  decide

example :
    ingestColumns ["SKU", "Disposition", "Balance"] =
      Except.error (schemaErrorMessage ["SKU", "Disposition", "Balance"]) := by
  rfl

example :
    (searchView [⟨"A", "ABC-1", 3⟩, ⟨"A", "XYZ-2", 4⟩, ⟨"B", "ABC-3", 5⟩]
      "abc").1 = [⟨"A", "ABC-1", 3⟩, ⟨"B", "ABC-3", 5⟩] := by decide

example : (searchView [⟨"A", "X1", 5⟩] ".").1 = [⟨"A", "X1", 5⟩] := by decide

example : specSubstrFilter [⟨"A", "X1", 5⟩] "." = [] := by decide

example : pyIntStr (-56) = "-56" := by decide

example : pyIntStr 0 = "0" := by decide

example : pyIntStr 1234 = "1234" := by decide

example :
    fromCsv (aggToCsv [⟨"A", "AB,C", -3⟩, ⟨"B \"x\"", "M\n2", 7⟩]) =
      some [⟨"A", "AB,C", -3⟩, ⟨"B \"x\"", "M\n2", 7⟩] := by decide

/-! ### Claim theorems -/

/-- C1 (counterexample): the claimed sum invariant is false as stated.  A row
with a missing MSKU cell, disposition `"SELLABLE"` and balance 5 passes the
sellable filter (sum 5) but is dropped by the groupby, so the aggregate total
is 0. -/
theorem sumInvariant_counterexample :
    ¬ (aggTotal [⟨none, some "SELLABLE", some "5", some "A"⟩] =
        sellableTotal [⟨none, some "SELLABLE", some "5", some "A"⟩]) := by
  decide

/-- C1 (amended): the sum of `total_balance` over the aggregate equals the sum
of normalized balances of the sellable input rows whose MSKU cell is present;
rows with a missing MSKU are dropped by the grouping and contribute nothing. -/
theorem sumInvariant_mskuPresent (t : List RawRow) :
    aggTotal t =
      (((sellableRows t).filter (fun r => r.msku.isSome)).map
        (fun r => normalizeBalance r.balance)).sum :=
  aggTotal_eq_msku_present t

/-- C2: balance normalization is the cast/strip-commas/strip-noise/parse
pipeline with truncation, `"1,234.9 units"` gives 1234, `"abc"` gives 0,
`"-56"` gives -56, and every cell whose cleaned text still fails to parse
yields 0 (the row is kept: the function is total). -/
theorem balanceNormalization_spec :
    normalizeBalance (some "1,234.9 units") = 1234 ∧
    normalizeBalance (some "abc") = 0 ∧
    normalizeBalance (some "-56") = -56 ∧
    (∀ cell : Option String,
      parseCleaned (cleanBalance (pyStrCast cell)) = none →
        normalizeBalance cell = 0) := by
  refine ⟨by decide, by decide, by decide, ?_⟩
  intro cell h
  unfold normalizeBalance
  rw [h]

theorem balanceNormalization_spec_witness :
    normalizeBalance (some "x+y") = 0 :=
  balanceNormalization_spec.2.2.2 (some "x+y") (by decide)

/-- C3: whenever one of the four semantic fields does not resolve against the
(stripped) headers, ingestion fails with the schema error; the error message
contains the display name of every required field (in particular every
missing one) and the Python rendering of the full header list. -/
theorem schemaError_missing_columns (rawCols : List String)
    (hmiss : ∃ kp ∈ requiredFields,
      resolveField (rawCols.map pyStrip) kp.1 kp.2 = none) :
    ingestColumns rawCols =
      Except.error (schemaErrorMessage (rawCols.map pyStrip)) ∧
    (∀ kp ∈ requiredFields,
      kp.2.data <:+: (schemaErrorMessage (rawCols.map pyStrip)).data) ∧
    (pyReprList (rawCols.map pyStrip)).data <:+:
      (schemaErrorMessage (rawCols.map pyStrip)).data := by
  obtain ⟨kp, hkp, hnone⟩ := hmiss
  refine ⟨?_, ?_, ?_⟩
  · unfold ingestColumns
    rw [if_neg]
    intro hall
    rw [List.all_eq_true] at hall
    have hmem : resolveField (rawCols.map pyStrip) kp.1 kp.2 ∈
        requiredFields.map
          (fun kp => resolveField (rawCols.map pyStrip) kp.1 kp.2) :=
      List.mem_map_of_mem _ hkp
    have := hall _ hmem
    rw [hnone] at this
    simp at this
  · intro kp2 hkp2
    have hhead : kp2.2.data <:+: schemaErrorHead.data := by
      fin_cases hkp2 <;>
        · set_option maxRecDepth 8192 in decide
    obtain ⟨s, t, hst⟩ := hhead
    refine ⟨s, t ++ (pyReprList (rawCols.map pyStrip)).data, ?_⟩
    unfold schemaErrorMessage
    rw [String.data_append, ← hst]
    simp [List.append_assoc]
  · show (pyReprList (rawCols.map pyStrip)).data <:+:
      (schemaErrorHead ++ pyReprList (rawCols.map pyStrip)).data
    rw [String.data_append]
    exact (List.suffix_append _ _).isInfix

theorem schemaError_missing_columns_witness :
    ingestColumns ["SKU", "Disposition", "Balance"] =
      Except.error
        (schemaErrorMessage (["SKU", "Disposition", "Balance"].map pyStrip)) ∧
    (∀ kp ∈ requiredFields,
      kp.2.data <:+:
        (schemaErrorMessage (["SKU", "Disposition", "Balance"].map pyStrip)).data) ∧
    (pyReprList (["SKU", "Disposition", "Balance"].map pyStrip)).data <:+:
      (schemaErrorMessage (["SKU", "Disposition", "Balance"].map pyStrip)).data :=
  schemaError_missing_columns ["SKU", "Disposition", "Balance"]
    ⟨("location", "Location"), by decide, by decide⟩

/-- C4 (counterexample): the claimed "case-insensitive substring" filter is
false as stated, because `Series.str.contains` treats the search string as a
regular expression.  The search `"."` retains the MSKU `"X1"`, which does not
contain a literal dot. -/
theorem substringFilter_counterexample :
    (searchView [⟨"A", "X1", 5⟩] ".").1 = [(⟨"A", "X1", 5⟩ : AggRow)] ∧
      specSubstrFilter [⟨"A", "X1", 5⟩] "." = [] := by
  decide

/-- C4 (amended): for search strings containing no regex metacharacter, the
post-hoc filter retains exactly the aggregate rows whose msku contains the
search as a case-insensitive substring, and the per-location totals and
descending ordering are recomputed from the retained rows only (the
unfiltered aggregate itself is untouched: `searchView` returns a new list). -/
theorem substringFilter_amended (agg : List AggRow) (input : String)
    (hlit : ∀ c ∈ (pyLower (pyStrip input)).data, isRegexMeta c = false) :
    (searchView agg input).1 = specSubstrFilter agg input ∧
      (searchView agg input).2 = locTotals (specSubstrFilter agg input) :=
  searchView_substring agg input hlit

theorem substringFilter_amended_witness :
    (searchView [⟨"A", "ABC-1", 3⟩, ⟨"A", "XYZ-2", 4⟩, ⟨"B", "ABC-3", 5⟩]
        "abc").1 =
      specSubstrFilter
        [⟨"A", "ABC-1", 3⟩, ⟨"A", "XYZ-2", 4⟩, ⟨"B", "ABC-3", 5⟩] "abc" ∧
    (searchView [⟨"A", "ABC-1", 3⟩, ⟨"A", "XYZ-2", 4⟩, ⟨"B", "ABC-3", 5⟩]
        "abc").2 =
      locTotals (specSubstrFilter
        [⟨"A", "ABC-1", 3⟩, ⟨"A", "XYZ-2", 4⟩, ⟨"B", "ABC-3", 5⟩] "abc") :=
  substringFilter_amended
    [⟨"A", "ABC-1", 3⟩, ⟨"A", "XYZ-2", 4⟩, ⟨"B", "ABC-3", 5⟩] "abc"
    (by decide)

/-- C5: the reader tries the default encoding, then latin-1, then UTF-8, each
against the full parse with the cursor reset to 0 beforehand (every attempt is
invoked on stream state `⟨0⟩`), returns the first attempt that succeeds, and
produces an error (`none`) iff every attempt including the final lenient one
raises. -/
theorem readerFallbackChain (a b c l : Attempt) (s0 : Stream) :
    readCsvSafe a b c l s0 =
      firstSome [(a ⟨0⟩).1, (b ⟨0⟩).1, (c ⟨0⟩).1, (l ⟨0⟩).1] ∧
    (readCsvSafe a b c l s0 = none ↔
      ((a ⟨0⟩).1 = none ∧ (b ⟨0⟩).1 = none ∧ (c ⟨0⟩).1 = none ∧
        (l ⟨0⟩).1 = none)) := by
  rcases ha : a ⟨0⟩ with ⟨oa, sa⟩
  rcases hb : b ⟨0⟩ with ⟨ob, sb⟩
  rcases hc : c ⟨0⟩ with ⟨oc, sc⟩
  rcases hl : l ⟨0⟩ with ⟨ol, sl⟩
  cases oa with
  | some t => simp [readCsvSafe, seekZero, ha, firstSome]
  | none =>
    cases ob with
    | some t => simp [readCsvSafe, seekZero, ha, hb, firstSome]
    | none =>
      cases oc with
      | some t => simp [readCsvSafe, seekZero, ha, hb, hc, firstSome]
      | none =>
        cases ol with
        | some t => simp [readCsvSafe, seekZero, ha, hb, hc, hl, firstSome]
        | none => simp [readCsvSafe, seekZero, ha, hb, hc, hl, firstSome]

/-- C6: a header matches a desired name exactly when they agree after
stripping and lower-casing; resolution tries the display name first and falls
back to the short key; the headers `" msku "`, `"MSKU"` and `"Msku"` all
resolve for the msku field. -/
theorem columnResolution_caseInsensitive :
    (∀ cols desired, (findColumnByName cols desired).isSome = true ↔
      ∃ c ∈ cols, keyNorm c = keyNorm desired) ∧
    (∀ cols desired h, findColumnByName cols desired = some h →
      h ∈ cols ∧ keyNorm h = keyNorm desired) ∧
    (∀ cols key pretty, findColumnByName cols pretty = none →
      resolveField cols key pretty = findColumnByName cols key) ∧
    (∀ cols key pretty h, findColumnByName cols pretty = some h →
      resolveField cols key pretty = some h) ∧
    resolveField [" msku "] "msku" "MSKU" = some " msku " ∧
    resolveField ["MSKU"] "msku" "MSKU" = some "MSKU" ∧
    resolveField ["Msku"] "msku" "MSKU" = some "Msku" := by
  refine ⟨?_, ?_, ?_, ?_, by decide, by decide, by decide⟩
  · intro cols desired
    unfold findColumnByName
    rw [List.getLast?_isSome, Ne, List.filter_eq_nil_iff]
    push_neg
    constructor
    · rintro ⟨c, hc, hpred⟩
      exact ⟨c, hc, beq_iff_eq.mp hpred⟩
    · rintro ⟨c, hc, heq⟩
      exact ⟨c, hc, beq_iff_eq.mpr heq⟩
  · intro cols desired h hfind
    unfold findColumnByName at hfind
    have hmem := List.mem_of_getLast?_eq_some hfind
    rw [List.mem_filter] at hmem
    exact ⟨hmem.1, beq_iff_eq.mp hmem.2⟩
  · intro cols key pretty hnone
    unfold resolveField
    rw [hnone]
  · intro cols key pretty h hsome
    unfold resolveField
    rw [hsome]

theorem columnResolution_caseInsensitive_witness :
    resolveField ["Msku"] "msku" "MSKU" = some "Msku" :=
  columnResolution_caseInsensitive.2.2.2.1 ["Msku"] "msku" "MSKU" "Msku"
    (by decide)

/-- C7: serializing an aggregate to CSV (header row, no index, minimal
quoting) and re-parsing it reproduces the rows exactly — in particular the
same multiset of (location, msku, balance) triples. -/
theorem csvRoundTrip (agg : List AggRow) : fromCsv (aggToCsv agg) = some agg :=
  fromCsv_aggToCsv agg

/-- C8: the normalizer is idempotent — re-normalizing the printed form of an
already-normalized integer balance returns the same integer, and re-applying
the disposition transformation (cast, strip, upper-case) to a normalized
disposition leaves it unchanged. -/
theorem normalizerIdempotent :
    (∀ i : Int, normalizeBalance (some (pyIntStr i)) = i) ∧
    (∀ cell : Option String, normDisp (some (normDisp cell)) = normDisp cell) :=
  ⟨normalizeBalance_pyIntStr, normDisp_idem⟩

/-- C9: rows whose MSKU cell is missing never reach the aggregate — removing
them from the input leaves the aggregate unchanged, and a single sellable
row with a missing MSKU and nonzero balance produces an empty aggregate. -/
theorem nullMskuDropped :
    (∀ t : List RawRow,
      aggregate (t.filter (fun r => r.msku.isSome)) = aggregate t) ∧
    aggregate [⟨none, some "SELLABLE", some "7", some "B"⟩] = [] := by
  exact ⟨aggregate_msku_filter, by decide⟩

/-- C10: a missing disposition cell is cast to the literal string `"nan"` and
normalized to `"NAN"`, so it never equals `"SELLABLE"`; removing rows with a
missing disposition does not change the sellable filter's output. -/
theorem nullDispositionExcluded :
    normDisp none = "NAN" ∧
    (∀ t : List RawRow, sellableRows t =
      sellableRows (t.filter (fun r => r.disposition.isSome))) :=
  ⟨by decide, sellableRows_disposition_filter⟩

end W2
